import Mathlib

/-!
Verification development for the flexiv teleop benchmark scripts.

The repository consists of operator-driven calibration scripts
(drag_measure.py, tracking_stiffness_measure.py, transparency_measure.py,
and friends).  Each script launches a privileged external teleoperation
process, samples robot telemetry in a fixed-period polling loop, segments
the sample stream, and reduces segments to scalar metrics.

The embedding below follows the source code:

* Python floats are embedded as rationals (ℚ); the scripts only use
  +, -, *, /, abs, floor and comparisons on them, all of which the
  scripts guard against near-zero denominators, so rational arithmetic
  is the intended real-number reading of the code.  IEEE-specific
  behaviour appears in two places and is modelled explicitly there: the
  infinite-stiffness sentinel (float inf) is the `none` case of
  `Option ℚ`, with comparison semantics spelled out at `fluctLt`; and
  the chunk-grid boundary of the damping detector, where binary64
  rounding decides which chunk the endpoint sample joins, is handled by
  the round-to-nearest-even model `roundDouble`.
* The OS interface used by `stop_teleop` (getpgid / killpg / pkill) is
  embedded as an oracle describing which calls report "process not
  found"; the Python try/except structure is translated into matches on
  `Except`-valued calls, so a call site without a handler would
  propagate an error value.
* The unbounded `while True` sampling loops are embedded as structurally
  recursive functions over a finite prefix of the input stream; a loop
  that has not closed its segment by the end of the prefix returns
  `none` (in reality it would still be polling).
-/

namespace FlexivSpec

/-! ## Shared numeric constants (from the scripts' module-level parameters) -/

/-- drag_measure.py: `startDist = 0.05`. -/
def startDist : ℚ := 5/100

/-- drag_measure.py: `finalDistM = 0.30`. -/
def finalDistM : ℚ := 30/100

/-- drag_measure.py: chunk width literal `0.05` used in the chunking stage. -/
def chunkWidth : ℚ := 5/100

/-- The `1e-6` numerical floor used by all three metric calculators. -/
def epsFloor : ℚ := 1/1000000

/-- tracking_stiffness_measure.py: `stable_count = 20`. -/
def stable_count : Nat := 20

/-- tracking_stiffness_measure.py: `min_stiffness = 10.0`. -/
def min_stiffness : ℚ := 10

/-- tracking_stiffness_measure.py: `max_fluctuation = 20.0`. -/
def max_fluctuation : ℚ := 20

/-- transparency_measure.py: `valid_duration = 3.0`. -/
def valid_duration : ℚ := 3

/-! ## ProcessSupervisor: `stop_teleop`

All three scripts carry the same `stop_teleop` (drag_measure.py lines
105-143).  The supervisor state is the pair of module-level globals
`teleop_pid` / `teleop_pattern`; the OS outcomes are an oracle, with
"process not found" (`ProcessLookupError`) the failure mode of interest.
-/

/-- The module-level globals `teleop_pid` and `teleop_pattern`.
`teleop_pid = none` is Python `None`; `teleop_pattern = some ""` models an
empty (falsy) pattern string. -/
structure SupState where
  teleop_pid : Option Int
  teleop_pattern : Option String
deriving DecidableEq, Repr

/-- Termination-related OS calls issued by `stop_teleop`, in order. -/
inductive Action where
  | sigterm (pgid : Nat)
  | probe (pgid : Nat)
  | sigkill (pgid : Nat)
  | pkill (pat : String)
deriving DecidableEq, Repr

/-- Outcome of one POSIX call: delivered, or `ProcessLookupError`
(the process/group is already gone). -/
inductive OsCall where
  | ok
  | notFound
deriving DecidableEq, Repr

/-- Oracle fixing what the OS reports at each call site of one
`stop_teleop` invocation. `pkill_raises` covers the catch-all
`except Exception` around `subprocess.run(["pkill", ...])`. -/
structure OsOracle where
  getpgid_r : OsCall
  pgidVal : Nat
  sigterm_r : OsCall
  probe_r : OsCall
  sigkill_r : OsCall
  pkill_raises : Bool
deriving DecidableEq, Repr

/-- Model of `os.getpgid(pid)`: returns the group id or raises `ProcessLookupError`. -/
def osGetpgid (os : OsOracle) : Except String Nat :=
  match os.getpgid_r with
  | OsCall.ok => Except.ok os.pgidVal
  | OsCall.notFound => Except.error "ProcessLookupError"

/-- Model of `os.killpg(pgid, sig)`: delivered or raises `ProcessLookupError`. -/
def osKillpg (r : OsCall) : Except String Unit :=
  match r with
  | OsCall.ok => Except.ok ()
  | OsCall.notFound => Except.error "ProcessLookupError"

/-- Model of `subprocess.run(["pkill", "-9", "-f", pat], check=False)`: with
`check=False` a no-match exit code does not raise; `pkill_raises` models
any other exception from the call. -/
def osPkill (os : OsOracle) : Except String Unit :=
  if os.pkill_raises then Except.error "Exception" else Except.ok ()

/-- Phase 1 of `stop_teleop` (the `if teleop_pid is not None and
teleop_pid > 0:` block): group resolution, SIGTERM, liveness probe,
SIGKILL.  Every `except ProcessLookupError:` of the source is a match on
the error case that continues normally; an unhandled error value would
propagate to the result. Returns the issued actions. -/
def stopTeleopGroupPhase (pid : Int) (os : OsOracle) : Except String (List Action) :=
  if pid > 0 then
    match osGetpgid os with
    | Except.error _ => Except.ok []
    | Except.ok g =>
      match osKillpg os.sigterm_r with
      | Except.error _ => Except.ok [Action.sigterm g]
      | Except.ok _ =>
        match osKillpg os.probe_r with
        | Except.error _ => Except.ok [Action.sigterm g, Action.probe g]
        | Except.ok _ =>
          match osKillpg os.sigkill_r with
          | Except.error _ => Except.ok [Action.sigterm g, Action.probe g, Action.sigkill g]
          | Except.ok _ => Except.ok [Action.sigterm g, Action.probe g, Action.sigkill g]
  else Except.ok []

/-- Phase 2 of `stop_teleop` (the `if teleop_pattern:` block): the
pattern sweep.  A falsy pattern (unset or empty) skips the sweep; any
exception from the sweep is caught by `except Exception`. -/
def stopTeleopSweepPhase (pat : Option String) (os : OsOracle) : Except String (List Action) :=
  match pat with
  | none => Except.ok []
  | some p =>
    if p = "" then Except.ok []
    else
      match osPkill os with
      | Except.error _ => Except.ok [Action.pkill p]
      | Except.ok _ => Except.ok [Action.pkill p]

/-- The function `stop_teleop` (drag_measure.py lines 105-143): kill the recorded
process group with escalating signals, then sweep by command pattern;
afterwards `teleop_pid` is cleared (only when it was a positive pid —
the assignment `teleop_pid = None` sits inside the `if` block) and
`teleop_pattern` is always cleared. -/
def stop_teleop (s : SupState) (os : OsOracle) : Except String (SupState × List Action) :=
  match s.teleop_pid with
  | none =>
    match stopTeleopSweepPhase s.teleop_pattern os with
    | Except.error e => Except.error e
    | Except.ok acts2 => Except.ok (⟨none, none⟩, acts2)
  | some pid =>
    match stopTeleopGroupPhase pid os with
    | Except.error e => Except.error e
    | Except.ok acts1 =>
      let pidOut : Option Int := if pid > 0 then none else some pid
      match stopTeleopSweepPhase s.teleop_pattern os with
      | Except.error e => Except.error e
      | Except.ok acts2 => Except.ok (⟨pidOut, none⟩, acts1 ++ acts2)

/-- Helper: phase 1 never produces an error value (every
`ProcessLookupError` is handled at its call site). -/
theorem stopTeleopGroupPhase_ok (pid : Int) (os : OsOracle) :
    ∃ acts, stopTeleopGroupPhase pid os = Except.ok acts := by
  unfold stopTeleopGroupPhase osGetpgid osKillpg
  rcases os.getpgid_r with _ | _ <;>
    rcases os.sigterm_r with _ | _ <;>
      rcases os.probe_r with _ | _ <;>
        rcases os.sigkill_r with _ | _ <;>
          by_cases h : pid > 0 <;> simp [h] <;> exact ⟨_, rfl⟩

/-- Helper: phase 2 never produces an error value and issues no pkill
when the pattern is unset or empty. -/
theorem stopTeleopSweepPhase_ok (pat : Option String) (os : OsOracle) :
    ∃ acts, stopTeleopSweepPhase pat os = Except.ok acts ∧
      ((pat = none ∨ pat = some "") → acts = []) := by
  unfold stopTeleopSweepPhase osPkill
  rcases pat with _ | p
  · exact ⟨[], rfl, fun _ => rfl⟩
  · by_cases hp : p = ""
    · subst hp; exact ⟨[], by simp, fun _ => rfl⟩
    · by_cases hr : os.pkill_raises <;>
        refine ⟨[Action.pkill p], by simp [hp, hr], fun hc => ?_⟩ <;>
          rcases hc with hc | hc <;> simp_all

/-- C2: for every supervisor state and every OS outcome (including
"process not found" at group resolution, at each signal delivery, and an
exception in the pattern sweep), `stop_teleop` returns normally — it
never propagates an error — and whenever the recorded pattern is unset
or empty, the returned action list contains no pattern sweep. -/
theorem stop_teleop_total_and_sweep_noop (s : SupState) (os : OsOracle) :
    (∃ v, stop_teleop s os = Except.ok v) ∧
    (∀ v, stop_teleop s os = Except.ok v →
      (s.teleop_pattern = none ∨ s.teleop_pattern = some "") →
      ∀ p, Action.pkill p ∉ v.2) := by
  obtain ⟨acts2, h2, h2e⟩ := stopTeleopSweepPhase_ok s.teleop_pattern os
  rcases hs : s.teleop_pid with _ | pid
  · refine ⟨⟨(⟨none, none⟩, acts2), by simp [stop_teleop, hs, h2]⟩, ?_⟩
    intro v hv hpat p hp
    simp only [stop_teleop, hs, h2] at hv
    cases hv
    simp only [h2e hpat] at hp
    simp at hp
  · obtain ⟨acts1, h1⟩ := stopTeleopGroupPhase_ok pid os
    refine ⟨⟨(⟨if pid > 0 then none else some pid, none⟩, acts1 ++ acts2),
      by simp [stop_teleop, hs, h1, h2]⟩, ?_⟩
    intro v hv hpat p hp
    simp only [stop_teleop, hs, h1, h2] at hv
    cases hv
    simp only [h2e hpat, List.append_nil] at hp
    -- phase 1 never issues a pkill action
    have h1p : ∀ a ∈ acts1, ∀ q, a ≠ Action.pkill q := by
      intro a ha q
      revert h1
      unfold stopTeleopGroupPhase osGetpgid osKillpg
      rcases os.getpgid_r with _ | _ <;>
        rcases os.sigterm_r with _ | _ <;>
          rcases os.probe_r with _ | _ <;>
            rcases os.sigkill_r with _ | _ <;>
              by_cases hpid : pid > 0 <;> simp [hpid] <;>
                rintro rfl <;> simp_all <;>
                  rcases ha with ha | ha | ha <;> simp_all
    exact h1p _ hp p rfl

/-- C2 witness: a concrete already-exited process (every OS call reports
"process not found") with an unset pattern. -/
theorem stop_teleop_total_witness :
    (∃ v, stop_teleop ⟨some 4242, none⟩
        ⟨OsCall.notFound, 0, OsCall.notFound, OsCall.notFound, OsCall.notFound, true⟩ =
        Except.ok v) ∧
    (∀ v, stop_teleop ⟨some 4242, none⟩
        ⟨OsCall.notFound, 0, OsCall.notFound, OsCall.notFound, OsCall.notFound, true⟩ =
        Except.ok v →
      ((⟨some 4242, none⟩ : SupState).teleop_pattern = none ∨
        (⟨some 4242, none⟩ : SupState).teleop_pattern = some "") →
      ∀ p, Action.pkill p ∉ v.2) :=
  stop_teleop_total_and_sweep_noop ⟨some 4242, none⟩
    ⟨OsCall.notFound, 0, OsCall.notFound, OsCall.notFound, OsCall.notFound, true⟩

/-- C1: from a valid recorded handle (positive pid recorded, pattern
recorded), a second `stop_teleop` right after a first one leaves the
supervisor state unchanged and issues no OS action at all — so two calls
are observationally the single first call. -/
theorem stop_teleop_idempotent (s : SupState) (pid : Int) (pat : String)
    (hpid : s.teleop_pid = some pid) (hpos : 0 < pid)
    (hpat : s.teleop_pattern = some pat)
    (os1 os2 : OsOracle) (s1 : SupState) (a1 : List Action)
    (h1 : stop_teleop s os1 = Except.ok (s1, a1)) :
    stop_teleop s1 os2 = Except.ok (s1, []) := by
  obtain ⟨acts1, hg⟩ := stopTeleopGroupPhase_ok pid os1
  obtain ⟨acts2, hs2, _⟩ := stopTeleopSweepPhase_ok s.teleop_pattern os1
  have hpos2 : pid > 0 := hpos
  simp only [stop_teleop, hpid, hg, hs2, hpos2, if_pos] at h1
  cases h1
  simp [stop_teleop, stopTeleopSweepPhase]

/-- C1 witness: a concrete valid handle, stopped twice; the second call
is a no-op. -/
theorem stop_teleop_idempotent_witness :
    stop_teleop ⟨none, none⟩ ⟨OsCall.ok, 7, OsCall.ok, OsCall.ok, OsCall.ok, false⟩ =
      Except.ok (⟨none, none⟩, []) :=
  stop_teleop_idempotent ⟨some 4242, some "test_teleop"⟩ 4242 "test_teleop" rfl
    (by decide) rfl
    ⟨OsCall.ok, 7, OsCall.ok, OsCall.ok, OsCall.ok, false⟩
    ⟨OsCall.ok, 7, OsCall.ok, OsCall.ok, OsCall.ok, false⟩
    ⟨none, none⟩
    [Action.sigterm 7, Action.probe 7, Action.sigkill 7, Action.pkill "test_teleop"]
    rfl

/-! ## Rolling-stability stiffness detector
(tracking_stiffness_measure.py, `measure_stiffness_for_axis`, lines 147-202)

A 0.1 s sub-segment is the list of `(delta, F_slave)` pairs gathered by the
inner sampling loop; the outer loop reduces each non-empty sub-segment to a
local stiffness and maintains the bounded window `stable_window`.

The Python value `float('inf')` (the division-by-near-zero sentinel) is
embedded as `none : Option ℚ`.  Its float comparison semantics, used by the
stability test, are: `inf > 10.0` is true; and if the window contains `inf`
then `max(window) - min(window)` is `inf` (or `nan` when both are `inf`),
so the `< 20.0` comparison is false either way. -/

/-- A local stiffness value: `some q` is the finite float `q`,
`none` is the `float('inf')` sentinel. -/
def KVal : Type := Option ℚ

instance : DecidableEq KVal := by unfold KVal; infer_instance

/-- Python `val > min_stiffness` on a possibly-infinite value. -/
def gtFloor (k : KVal) : Bool :=
  match k with
  | none => true
  | some q => decide (min_stiffness < q)

/-- Python `max(stable_window) - min(stable_window) < max_fluctuation`:
false whenever the window contains the infinite sentinel (the difference
is then `inf` or `nan`), otherwise the finite max minus min compared
against the tolerance. -/
def fluctLt (w : List KVal) : Bool :=
  if (w.any fun k => k.isNone) then false
  else
    match (w.filterMap id).max?, (w.filterMap id).min? with
    | some hi, some lo => decide (hi - lo < max_fluctuation)
    | _, _ => false

/-- The stability test performed once the window is full:
`len(stable_window) == stable_count`, then `all(val > min_stiffness ...)`,
then `max - min < max_fluctuation`. -/
def stableCond (w : List KVal) : Bool :=
  w.length == stable_count && w.all gtFloor && fluctLt w

/-- Local stiffness of one sub-segment (lines 183-190): signed means of
delta and F_slave, with the infinite sentinel when the mean delta is
within `1e-6` of zero. -/
def K_of_segment (s : List (ℚ × ℚ)) : KVal :=
  let N : ℚ := s.length
  let avg_delta := (s.map Prod.fst).sum / N
  let avg_F := (s.map Prod.snd).sum / N
  if |avg_delta| < epsFloor then none else some (avg_F / avg_delta)

/-- Window push: `stable_window.append(K_seg)` followed by
`if len(stable_window) > stable_count: stable_window.pop(0)`. -/
def pushWin (w : List KVal) (k : KVal) : List KVal :=
  let w2 := w ++ [k]
  if stable_count < w2.length then w2.tail else w2

/-- The outer `while True` loop of `measure_stiffness_for_axis`, run over a
finite prefix of the stream of sub-segments: an empty sub-segment is
skipped (`if seg_samples:`); otherwise its stiffness is pushed into
the window and the stability test tried.  On success the Python code
returns `sum(stable_window)/stable_count` (together with the last mean
error and the log); here the returned metric and the closing window are
kept.  `none` means the prefix ended with the loop still polling. -/
def measure_stiffness_for_axis : List (List (ℚ × ℚ)) → List KVal → Option (KVal × List KVal)
  | [], _ => none
  | s :: rest, w =>
    if s.isEmpty then measure_stiffness_for_axis rest w
    else
      let w2 := pushWin w (K_of_segment s)
      if stableCond w2 then
        some ((if (w2.any fun k => k.isNone) then none
               else some ((w2.filterMap id).sum / (stable_count : ℚ))), w2)
      else measure_stiffness_for_axis rest w2

/-- The successive window states inspected by the loop (one per non-empty
sub-segment, stopping at the closing window). -/
def winTrace : List (List (ℚ × ℚ)) → List KVal → List (List KVal)
  | [], _ => []
  | s :: rest, w =>
    if s.isEmpty then winTrace rest w
    else
      let w2 := pushWin w (K_of_segment s)
      if stableCond w2 then [w2] else w2 :: winTrace rest w2

theorem pushWin_length_le (w : List KVal) (k : KVal) (h : w.length ≤ stable_count) :
    (pushWin w k).length ≤ stable_count := by
  unfold pushWin
  by_cases hl : stable_count < (w ++ [k]).length
  · rw [if_pos hl]
    rcases w with _ | ⟨a, t⟩
    · simp only [List.nil_append, List.length_singleton, stable_count] at hl
      omega
    · simp only [List.length_cons] at h
      simp only [List.cons_append, List.tail_cons, List.length_append, List.length_cons,
        List.length_nil] at hl ⊢
      omega
  · rw [if_neg hl]
    omega

theorem fluctLt_no_inf (w : List KVal) (h : fluctLt w = true) :
    (w.any fun k => k.isNone) = false := by
  by_contra hc
  have : (w.any fun k => k.isNone) = true := by
    revert hc; cases (w.any fun k => k.isNone) <;> simp
  simp [fluctLt, this] at h

/-- Main induction for C3: starting from a window within bound, every
inspected window stays within bound; if the loop closes, the closing
window passes the stability test and the returned metric is the mean; if
the prefix runs out, no inspected window passed the test. -/
theorem measure_stiffness_invariant (segs : List (List (ℚ × ℚ))) :
    ∀ w, w.length ≤ stable_count →
      ((∀ u ∈ winTrace segs w, u.length ≤ stable_count) ∧
       (∀ K u, measure_stiffness_for_axis segs w = some (K, u) →
          stableCond u = true ∧
          K = some ((u.filterMap id).sum / (stable_count : ℚ))) ∧
       (measure_stiffness_for_axis segs w = none →
          ∀ u ∈ winTrace segs w, stableCond u = false)) := by
  induction segs with
  | nil =>
    intro w hw
    refine ⟨by simp [winTrace], by simp [measure_stiffness_for_axis], ?_⟩
    simp [winTrace]
  | cons s rest ih =>
    intro w hw
    by_cases hs : s.isEmpty = true
    · have h1 := ih w hw
      refine ⟨?_, ?_, ?_⟩
      · intro u hu
        rw [winTrace, if_pos hs] at hu
        exact h1.1 u hu
      · intro K u hK
        rw [measure_stiffness_for_axis, if_pos hs] at hK
        exact h1.2.1 K u hK
      · intro hn u hu
        rw [measure_stiffness_for_axis, if_pos hs] at hn
        rw [winTrace, if_pos hs] at hu
        exact h1.2.2 hn u hu
    · have hw2 : (pushWin w (K_of_segment s)).length ≤ stable_count :=
        pushWin_length_le w (K_of_segment s) hw
      by_cases hst : stableCond (pushWin w (K_of_segment s)) = true
      · refine ⟨?_, ?_, ?_⟩
        · intro u hu
          rw [winTrace, if_neg hs] at hu
          simp only [if_pos hst, List.mem_singleton] at hu
          exact hu ▸ hw2
        · intro K u hK
          rw [measure_stiffness_for_axis, if_neg hs] at hK
          simp only [if_pos hst, Option.some_inj, Prod.mk.injEq] at hK
          obtain ⟨hKv, hu⟩ := hK
          subst hu
          refine ⟨hst, ?_⟩
          have hfl : fluctLt (pushWin w (K_of_segment s)) = true := by
            have := hst
            simp only [stableCond, Bool.and_eq_true] at this
            exact this.2
          have hni := fluctLt_no_inf _ hfl
          rw [← hKv]
          simp [hni]
        · intro hn
          rw [measure_stiffness_for_axis, if_neg hs] at hn
          simp only [if_pos hst] at hn
          exact absurd hn (by simp)
      · have h2 := ih (pushWin w (K_of_segment s)) hw2
        refine ⟨?_, ?_, ?_⟩
        · intro u hu
          rw [winTrace, if_neg hs] at hu
          simp only [if_neg hst, List.mem_cons] at hu
          rcases hu with heq | hu
          · exact heq ▸ hw2
          · exact h2.1 u hu
        · intro K u hK
          rw [measure_stiffness_for_axis, if_neg hs] at hK
          simp only [if_neg hst] at hK
          exact h2.2.1 K u hK
        · intro hn u hu
          rw [measure_stiffness_for_axis, if_neg hs] at hn
          rw [winTrace, if_neg hs] at hu
          simp only [if_neg hst] at hn
          simp only [if_neg hst, List.mem_cons] at hu
          rcases hu with heq | hu
          · exact heq ▸ Bool.eq_false_iff.mpr hst
          · exact h2.2.2 hn u hu

/-- C3: for every stream of sub-segments, the bounded window never holds
more than `stable_count = 20` stiffness values; when the loop closes,
the closing window holds exactly 20 values, every one of them exceeds
`min_stiffness`, max minus min over the window is below
`max_fluctuation`, and the returned metric is the arithmetic mean
(sum over 20) of exactly those buffered values; and as long as the loop
has not closed, no inspected window passed the stability test. -/
theorem stiffness_stable_window_spec (segs : List (List (ℚ × ℚ))) :
    (∀ u ∈ winTrace segs [], u.length ≤ stable_count) ∧
    (∀ K u, measure_stiffness_for_axis segs [] = some (K, u) →
       u.length = stable_count ∧ (∀ v ∈ u, gtFloor v = true) ∧
       fluctLt u = true ∧
       K = some ((u.filterMap id).sum / (stable_count : ℚ))) ∧
    (measure_stiffness_for_axis segs [] = none →
       ∀ u ∈ winTrace segs [], stableCond u = false) := by
  have h := measure_stiffness_invariant segs [] (by simp)
  refine ⟨h.1, ?_, h.2.2⟩
  intro K u hK
  obtain ⟨hst, hKf⟩ := h.2.1 K u hK
  simp only [stableCond, Bool.and_eq_true, beq_iff_eq, List.all_eq_true] at hst
  exact ⟨hst.1.1, hst.1.2, hst.2, hKf⟩

/-- Concrete input stream for the C3 witness: twenty identical
sub-segments, each one sample with delta 1 m and slave force 15 N. -/
def segsW : List (List (ℚ × ℚ)) :=
  [[(1, 15)], [(1, 15)], [(1, 15)], [(1, 15)], [(1, 15)],
   [(1, 15)], [(1, 15)], [(1, 15)], [(1, 15)], [(1, 15)],
   [(1, 15)], [(1, 15)], [(1, 15)], [(1, 15)], [(1, 15)],
   [(1, 15)], [(1, 15)], [(1, 15)], [(1, 15)], [(1, 15)]]

/-- The closing window on `segsW`: twenty finite stiffness values 15. -/
def winW : List KVal :=
  [some 15, some 15, some 15, some 15, some 15,
   some 15, some 15, some 15, some 15, some 15,
   some 15, some 15, some 15, some 15, some 15,
   some 15, some 15, some 15, some 15, some 15]

theorem measure_stiffness_segsW :
    measure_stiffness_for_axis segsW [] = some ((some 15 : KVal), winW) := by
  norm_num [segsW, winW, measure_stiffness_for_axis, pushWin, stableCond, K_of_segment,
    fluctLt, gtFloor, List.max?, List.min?, stable_count, min_stiffness, max_fluctuation,
    epsFloor, List.filterMap_cons, List.foldl_cons, List.foldl_nil, max_self, min_self,
    List.sum_cons, List.sum_nil]

/-- C3 witness: twenty identical sub-segments of one sample
(delta 1 m, force 15 N) close the window with metric 15 N/m. -/
theorem stiffness_stable_window_witness :
    winW.length = stable_count ∧
    (∀ v ∈ winW, gtFloor v = true) ∧
    fluctLt winW = true ∧
    (some (15 : ℚ) : KVal) = some ((winW.filterMap id).sum / (stable_count : ℚ)) :=
  (stiffness_stable_window_spec segsW).2.1 (some 15) winW measure_stiffness_segsW

/-! ## C4: the per-segment stiffness formula -/

/-- Modelled from the spec sentence, for comparison with the code:
tracking stiffness of a sub-segment as mean(|force|) divided by
mean(|positional or angular error|), with the infinite sentinel when the
mean absolute error is near zero. -/
def K_spec_absolute (s : List (ℚ × ℚ)) : KVal :=
  let N : ℚ := s.length
  let mean_abs_err := (s.map fun p => |p.1|).sum / N
  let mean_abs_F := (s.map fun p => |p.2|).sum / N
  if mean_abs_err < epsFloor then none else some (mean_abs_F / mean_abs_err)

/-- C4 counterexample: on the non-empty sub-segment
[(delta, F)] = [(1, 1), (3, -3)] the code computes the signed means
(mean delta 2, mean force -1) and reports stiffness -1/2, while
mean(|force|)/mean(|error|) is 1 — the claimed formula does not describe
the code. -/
theorem K_of_segment_ne_absolute_means :
    K_of_segment [(1, 1), (3, -3)] = some (-(1/2) : ℚ) ∧
    K_spec_absolute [(1, 1), (3, -3)] = some (1 : ℚ) ∧
    K_of_segment [(1, 1), (3, -3)] ≠ K_spec_absolute [(1, 1), (3, -3)] := by
  have h1 : K_of_segment [(1, 1), (3, -3)] = some (-(1/2) : ℚ) := by
    simp only [K_of_segment, epsFloor, List.map_cons, List.map_nil, List.sum_cons,
      List.sum_nil, List.length_cons, List.length_nil]
    norm_num
  have h2 : K_spec_absolute [(1, 1), (3, -3)] = some (1 : ℚ) := by
    simp only [K_spec_absolute, epsFloor, List.map_cons, List.map_nil, List.sum_cons,
      List.sum_nil, List.length_cons, List.length_nil]
    norm_num
  refine ⟨h1, h2, ?_⟩
  rw [h1, h2]
  intro hc
  have : (-(1/2) : ℚ) = 1 := Option.some_injective ℚ hc
  norm_num at this

/-- C4 amended: the per-segment local stiffness is mean(force) divided by
mean(error) of the segment's SIGNED samples; a zero or near-zero signed
mean error yields the sentinel infinite stiffness rather than a division
fault; and on segments whose errors and forces are all of one
(nonnegative) sign this coincides with the spec's
mean(|force|)/mean(|error|). -/
theorem K_of_segment_signed_means (s : List (ℚ × ℚ)) (h : s ≠ []) :
    (|(s.map Prod.fst).sum / (s.length : ℚ)| < epsFloor → K_of_segment s = none) ∧
    (epsFloor ≤ |(s.map Prod.fst).sum / (s.length : ℚ)| →
       K_of_segment s =
         some (((s.map Prod.snd).sum / (s.length : ℚ)) /
           ((s.map Prod.fst).sum / (s.length : ℚ)))) ∧
    ((∀ p ∈ s, 0 ≤ p.1) → (∀ p ∈ s, 0 ≤ p.2) →
       K_of_segment s = K_spec_absolute s) := by
  refine ⟨?_, ?_, ?_⟩
  · intro hlt
    simp only [K_of_segment, hlt, if_pos]
  · intro hge
    have hnlt : ¬ |(s.map Prod.fst).sum / (s.length : ℚ)| < epsFloor := not_lt.mpr hge
    simp only [K_of_segment, hnlt, if_neg, if_false]
  · intro h1 h2
    have e1 : s.map (fun p => |p.1|) = s.map Prod.fst := by
      apply List.map_congr_left
      intro p hp
      exact abs_of_nonneg (h1 p hp)
    have e2 : s.map (fun p => |p.2|) = s.map Prod.snd := by
      apply List.map_congr_left
      intro p hp
      exact abs_of_nonneg (h2 p hp)
    have hsum1 : 0 ≤ (s.map Prod.fst).sum := by
      apply List.sum_nonneg
      intro x hx
      obtain ⟨p, hp, rfl⟩ := List.mem_map.mp hx
      exact h1 p hp
    have hmean1 : 0 ≤ (s.map Prod.fst).sum / (s.length : ℚ) :=
      div_nonneg hsum1 (by positivity)
    simp only [K_of_segment, K_spec_absolute, e1, e2, abs_of_nonneg hmean1]

/-- C4 amended witness: a one-sample segment with error 1 m and force
2 N, all-nonnegative, where the code and the spec formula agree. -/
theorem K_of_segment_signed_means_witness :
    K_of_segment [((1 : ℚ), (2 : ℚ))] = K_spec_absolute [((1 : ℚ), (2 : ℚ))] :=
  (K_of_segment_signed_means [((1 : ℚ), (2 : ℚ))] (by simp)).2.2
    (by norm_num) (by norm_num)

/-! ## Distance-windowed damping detector
(drag_measure.py, `measure_damping_in_one_direction`, lines 156-265)

The sampling loop records, per snapshot, velocity, force and the absolute
projected distance from the initial position (the CSV row additionally
keeps the timestamp and position, which no later computation reads).  The
chunking stage bins the records by distance and reduces each bin. -/

structure Vec3 where
  x : ℚ
  y : ℚ
  z : ℚ
deriving DecidableEq

/-- The dot product used for projecting velocity/force onto the direction
unit vector. -/
def dot (a b : Vec3) : ℚ := a.x * b.x + a.y * b.y + a.z * b.z

/-- One `robot.states()` snapshot: TCP position, velocity, external force. -/
structure RobotState where
  pos : Vec3
  vel : Vec3
  force : Vec3
deriving DecidableEq

/-- Signed projected displacement `dist_dir` from the initial position
(`dx*unit_dir[0] + dy*unit_dir[1] + dz*unit_dir[2]`). -/
def distDir (init u : Vec3) (s : RobotState) : ℚ :=
  (s.pos.x - init.x) * u.x + (s.pos.y - init.y) * u.y + (s.pos.z - init.z) * u.z

/-- Absolute projected distance `dist_abs = abs(dist_dir)`. -/
def distAbs (init u : Vec3) (s : RobotState) : ℚ := |distDir init u s|

/-- One entry of `data_records`. -/
structure DataRec where
  vel : Vec3
  force : Vec3
  dist : ℚ
deriving DecidableEq

/-- The sampling loop of `measure_damping_in_one_direction` (lines
171-202), over a finite prefix of the snapshot stream.  `reached` is the
one-shot `reachedStart` latch (set at the first sample whose absolute
projected distance reaches `startDist`); once latched, a sample is
recorded while its distance stays at most `finalDistM`, and the first
sample beyond `finalDistM` breaks the loop (`doneFinal`).  The direction
vector is taken already normalized: the configured directions are unit
axis vectors, so the source's `sqrt`-based normalization is the
identity on them. -/
def collect_damping (init u : Vec3) : List RobotState → Bool → List DataRec
  | [], _ => []
  | s :: rest, reached =>
    let d := distAbs init u s
    let reached2 := reached || decide (startDist ≤ d)
    if reached2 then
      if d ≤ finalDistM then
        ⟨s.vel, s.force, d⟩ :: collect_damping init u rest reached2
      else []
    else collect_damping init u rest reached2

/-- Chunk count `nChunks = int(math.floor(maxRange/0.05))` with
`maxRange = finalDistM - startDist`. -/
def nChunks : ℕ := (⌊(finalDistM - startDist) / chunkWidth⌋).toNat

/-- Chunk assignment `idx = int(offset//0.05)` with
`offset = dist_abs - startDist`, in the idealized real-number reading.
It agrees with the program's double-precision arithmetic at every
distance away from a binary64 representability boundary — which covers
all concrete inputs used with it in this file; the boundary behaviour at
`dist_abs == finalDistM` is handled by `chunkIdxF` below. -/
def chunkIdx (d : ℚ) : ℤ := ⌊(d - startDist) / chunkWidth⌋

/-- The records landing in chunk `i` (the distribution loop appends each
record with `0 ≤ idx < nChunks` to `chunkRecords[idx]`, in order). -/
def recsInChunk (recs : List DataRec) (i : ℕ) : List DataRec :=
  recs.filter fun r => chunkIdx r.dist = (i : ℤ)

/-- One row of `chunk_result_list`:
`(i, ds, de, avgV, avgF, bc, N)`. -/
structure ChunkRow where
  idx : ℕ
  ds : ℚ
  de : ℚ
  avgV : ℚ
  avgF : ℚ
  bc : ℚ
  n : ℕ
deriving DecidableEq

/-- The body of the per-chunk loop (lines 225-249): an empty chunk
produces the zero row; otherwise the means of the absolute projected
velocity and force, and the coefficient `avgF/avgV` floored to `0` when
`avgV < 1e-6`. -/
def chunkRow (u : Vec3) (recs : List DataRec) (i : ℕ) : ChunkRow :=
  let ds := startDist + chunkWidth * i
  let de := ds + chunkWidth
  let samples := recsInChunk recs i
  if samples.length = 0 then ⟨i, ds, de, 0, 0, 0, 0⟩
  else
    let N : ℚ := samples.length
    let sumV := (samples.map fun r => |dot r.vel u|).sum
    let sumF := (samples.map fun r => |dot r.force u|).sum
    let avgV := sumV / N
    let avgF := sumF / N
    let bc := if avgV < epsFloor then 0 else avgF / avgV
    ⟨i, ds, de, avgV, avgF, bc, samples.length⟩

/-- The accumulation step of the same loop: the row is always appended to
the table; `validSumB`/`validCount` pick up the row exactly when
`bc > 0 and avgV > 1e-6`. -/
def chunkLoopStep (u : Vec3) (recs : List DataRec) (acc : List ChunkRow × ℚ × ℕ) (i : ℕ) :
    List ChunkRow × ℚ × ℕ :=
  let row := chunkRow u recs i
  if 0 < row.bc ∧ epsFloor < row.avgV then (acc.1 ++ [row], acc.2.1 + row.bc, acc.2.2 + 1)
  else (acc.1 ++ [row], acc.2.1, acc.2.2)

/-- The chunking stage (lines 208-257): loop `for i in range(nChunks)`,
then `B_dir = validSumB/validCount` (zero when no chunk qualified).
Returns `(B_dir, chunk_result_list)`. -/
def measure_damping_chunks (u : Vec3) (recs : List DataRec) : ℚ × List ChunkRow :=
  let st := (List.range nChunks).foldl (chunkLoopStep u recs) ([], 0, 0)
  (if st.2.2 = 0 then 0 else st.2.1 / (st.2.2 : ℚ), st.1)

/-- The whole measurement for one direction: collect, then (when at least
5 records were gathered — otherwise the run reports `B_dir = 0` with an
empty chunk table) chunk and reduce. -/
def measure_damping_in_one_direction (init u : Vec3) (stream : List RobotState) :
    ℚ × List DataRec × List ChunkRow :=
  let recs := collect_damping init u stream false
  if recs.length < 5 then (0, recs, [])
  else
    let br := measure_damping_chunks u recs
    (br.1, recs, br.2)

/-! ### C5: the chunk grid -/

theorem nChunks_eq_five : nChunks = 5 := by
  have h : (⌊(finalDistM - startDist) / chunkWidth⌋ : ℤ) = 5 := by
    norm_num [finalDistM, startDist, chunkWidth]
  rw [nChunks, h]
  rfl

/-! #### The chunk grid at the script's double precision

The rational `chunkIdx` above is the idealized real-number reading of
`idx = int(offset//0.05)`; it agrees with the program at every distance
away from a binary64 representability boundary (all concrete chunk
inputs used elsewhere in this file are of that kind).  The partition
claim C5, however, is decided exactly at the boundary
`dist_abs == finalDistM`, where double rounding matters: the doubles
written `0.05` and `0.30` are 3602879701896397/2^56 and
5404319552844595/2^54; their exact difference, 1/4 - 2^(-56), is a
round-to-nearest tie and rounds to exactly 1/4 (ties to even); and
CPython's float floor division `a//b` returns the exact floor of the
quotient of the two doubles, so the endpoint offset gives
`0.25 // 0.05 == 4.0` (the exact quotient is just below 5 because the
double 0.05 is just above 1/20) and the endpoint sample is assigned to
the last chunk.  The definitions below model binary64
round-to-nearest-even on nonnegative values and re-derive the chunk
index arithmetic with it. -/

/-- Round half to even at integer precision: the nearest integer to m,
ties resolved to the even neighbour. -/
def rhe (m : ℚ) : ℤ :=
  if m - (⌊m⌋ : ℚ) < 1/2 then ⌊m⌋
  else if (1:ℚ)/2 < m - (⌊m⌋ : ℚ) then ⌊m⌋ + 1
  else if ⌊m⌋ % 2 = 0 then ⌊m⌋ else ⌊m⌋ + 1

/-- IEEE-754 binary64 rounding (round to nearest, ties to even) for
nonnegative values in the normal range, the only values the scripts
produce: scale into the binade [2^52, 2^53), round half to even, scale
back.  A nonpositive input (in this file only exactly 0) returns 0. -/
def roundDouble (x : ℚ) : ℚ :=
  if x ≤ 0 then 0
  else (rhe (x * 2 ^ (52 - Int.log 2 x)) : ℚ) * 2 ^ (Int.log 2 x - 52)

/-- Base-2 logarithm of a value bracketed by consecutive powers of 2. -/
theorem int_log_two_eq (x : ℚ) (e : ℤ) (hx : 0 < x)
    (h1 : (2 : ℚ) ^ e ≤ x) (h2 : x < (2 : ℚ) ^ (e + 1)) :
    Int.log 2 x = e := by
  have hcast : ((2 : ℕ) : ℚ) = (2 : ℚ) := by norm_num
  have hle : e ≤ Int.log 2 x := by
    rw [← Int.zpow_le_iff_le_log (by norm_num) hx, hcast]
    exact h1
  have hgt : ¬ (e + 1 ≤ Int.log 2 x) := by
    rw [← Int.zpow_le_iff_le_log (by norm_num) hx, hcast]
    exact not_le.mpr h2
  omega

theorem rhe_le (m : ℚ) : (rhe m : ℚ) ≤ m + 1/2 := by
  have h1 : (⌊m⌋ : ℚ) ≤ m := Int.floor_le m
  rw [rhe]
  by_cases hr1 : m - (⌊m⌋ : ℚ) < 1/2
  · rw [if_pos hr1]
    linarith
  · rw [if_neg hr1]
    push_neg at hr1
    by_cases hr2 : (1:ℚ)/2 < m - (⌊m⌋ : ℚ)
    · rw [if_pos hr2]
      push_cast
      linarith
    · rw [if_neg hr2]
      by_cases hp : ⌊m⌋ % 2 = 0
      · rw [if_pos hp]
        linarith
      · rw [if_neg hp]
        push_cast
        linarith

theorem rhe_nonneg (m : ℚ) (hm : 0 ≤ m) : (0 : ℤ) ≤ rhe m := by
  have h0 : 0 ≤ ⌊m⌋ := Int.floor_nonneg.mpr hm
  rw [rhe]
  by_cases hr1 : m - (⌊m⌋ : ℚ) < 1/2
  · rw [if_pos hr1]
    exact h0
  · rw [if_neg hr1]
    by_cases hr2 : (1:ℚ)/2 < m - (⌊m⌋ : ℚ)
    · rw [if_pos hr2]
      omega
    · rw [if_neg hr2]
      by_cases hp : ⌊m⌋ % 2 = 0
      · rw [if_pos hp]
        exact h0
      · rw [if_neg hp]
        omega

/-- Round-to-nearest never overshoots a value in the binade
[2^e, 2^(e+1)) by more than half an ulp, and a positive value never
rounds below zero. -/
theorem roundDouble_bounds (x : ℚ) (e : ℤ) (hx : 0 < x)
    (h1 : (2 : ℚ) ^ e ≤ x) (h2 : x < (2 : ℚ) ^ (e + 1)) :
    roundDouble x ≤ x + 2 ^ (e - 53) ∧ 0 ≤ roundDouble x := by
  have hlog := int_log_two_eq x e hx h1 h2
  rw [roundDouble, if_neg (not_le.mpr hx), hlog]
  have htwo : (2 : ℚ) ≠ 0 := by norm_num
  have hpw2 : (0 : ℚ) < (2:ℚ) ^ (e - 52) := zpow_pos (by norm_num) _
  have hpw1 : (0 : ℚ) < (2:ℚ) ^ ((52:ℤ) - e) := zpow_pos (by norm_num) _
  have hxm : x * 2 ^ ((52:ℤ) - e) * 2 ^ (e - 52) = x := by
    rw [mul_assoc, ← zpow_add₀ htwo, show (52:ℤ) - e + (e - 52) = 0 by omega, zpow_zero,
      mul_one]
  have hhalf : (1/2 : ℚ) * 2 ^ (e - 52) = 2 ^ (e - 53) := by
    rw [show (1/2 : ℚ) = (2:ℚ) ^ (-1 : ℤ) by norm_num, ← zpow_add₀ htwo]
    congr 1
    omega
  constructor
  · calc (rhe (x * 2 ^ ((52:ℤ) - e)) : ℚ) * 2 ^ (e - 52)
        ≤ (x * 2 ^ ((52:ℤ) - e) + 1/2) * 2 ^ (e - 52) :=
          mul_le_mul_of_nonneg_right (rhe_le _) (le_of_lt hpw2)
      _ = x + 2 ^ (e - 53) := by rw [add_mul, hxm, hhalf]
  · have hn : (0 : ℤ) ≤ rhe (x * 2 ^ ((52:ℤ) - e)) :=
      rhe_nonneg _ (le_of_lt (mul_pos hx hpw1))
    exact mul_nonneg (by exact_mod_cast hn) (le_of_lt hpw2)

theorem roundDouble_nonneg (x : ℚ) : 0 ≤ roundDouble x := by
  by_cases hx0 : x ≤ 0
  · rw [roundDouble, if_pos hx0]
  · push_neg at hx0
    have h1 := Int.zpow_log_le_self (b := 2) (by norm_num) hx0
    have h2 := Int.lt_zpow_succ_log_self (b := 2) (by norm_num) x
    rw [show ((2:ℕ):ℚ) = (2:ℚ) from by norm_num] at h1 h2
    exact (roundDouble_bounds x (Int.log 2 x) hx0 h1 h2).2

/-- Any value at most the exact offset of the endpoint sample rounds to
at most 1/4 (the binade of the endpoint offset has ulp 2^(-55)). -/
theorem roundDouble_le_quarter (x : ℚ) (hxle : x ≤ 1/4 - 2 ^ ((-56 : ℤ))) :
    roundDouble x ≤ 1/4 := by
  by_cases hx0 : x ≤ 0
  · rw [roundDouble, if_pos hx0]
    norm_num
  · push_neg at hx0
    by_cases hb : (1/8 : ℚ) ≤ x
    · have hbd := roundDouble_bounds x (-3) hx0 (by norm_num; linarith) (by
        have he : ((2:ℚ) ^ ((-3:ℤ) + 1)) = 1/4 := by norm_num
        rw [he]
        have : (0:ℚ) < 2 ^ ((-56 : ℤ)) := zpow_pos (by norm_num) _
        linarith)
      have he : ((2:ℚ) ^ ((-3:ℤ) - 53)) = 2 ^ ((-56:ℤ)) := by
        congr 1
      calc roundDouble x ≤ x + 2 ^ ((-3:ℤ) - 53) := hbd.1
        _ = x + 2 ^ ((-56:ℤ)) := by rw [he]
        _ ≤ 1/4 := by linarith
    · push_neg at hb
      have h1 := Int.zpow_log_le_self (b := 2) (by norm_num) hx0
      have h2 := Int.lt_zpow_succ_log_self (b := 2) (by norm_num) x
      rw [show ((2:ℕ):ℚ) = (2:ℚ) from by norm_num] at h1 h2
      have he4 : Int.log 2 x ≤ -4 := by
        by_contra hcon
        push_neg at hcon
        have hmono : ((2:ℚ) ^ (-3 : ℤ)) ≤ (2:ℚ) ^ (Int.log 2 x) :=
          zpow_le_zpow_right₀ (by norm_num) (by omega)
        have : (1/8 : ℚ) ≤ x := by
          have h18 : ((2:ℚ) ^ (-3 : ℤ)) = 1/8 := by norm_num
          rw [h18] at hmono
          exact le_trans hmono h1
        exact absurd this (not_le.mpr hb)
      have hbd := roundDouble_bounds x (Int.log 2 x) hx0 h1 h2
      have hp : (2:ℚ) ^ (Int.log 2 x - 53) ≤ (2:ℚ) ^ ((-57:ℤ)) :=
        zpow_le_zpow_right₀ (by norm_num) (by omega)
      calc roundDouble x ≤ x + 2 ^ (Int.log 2 x - 53) := hbd.1
        _ ≤ 1/8 + 2 ^ ((-57:ℤ)) := add_le_add (le_of_lt hb) hp
        _ ≤ 1/4 := by norm_num

/-- The binary64 value of the literal `0.05` (the start distance). -/
def startDistF : ℚ := roundDouble startDist

/-- The binary64 value of the chunk width literal `0.05`. -/
def chunkWidthF : ℚ := roundDouble chunkWidth

/-- The binary64 value of the literal `0.30`. -/
def finalDistF : ℚ := roundDouble finalDistM

/-- Binary64 subtraction: exact difference, then one rounding. -/
def floatSub (a b : ℚ) : ℚ := roundDouble (a - b)

/-- Double-precision `maxRange = finalDistM - startDist`. -/
def maxRangeF : ℚ := floatSub finalDistF startDistF

/-- Double-precision chunk count
`nChunks = int(math.floor(maxRange/0.05))`: true division `/` rounds its
exact quotient once; `math.floor` and `int` are exact on the result. -/
def nChunksF : ℕ := (⌊roundDouble (maxRangeF / chunkWidthF)⌋).toNat

/-- Double-precision chunk assignment `idx = int(offset//0.05)` with
`offset = dist_abs - startDist`: the offset is one float subtraction,
and CPython float floor division returns the exact floor of the quotient
of the two doubles (float_divmod), which `int` preserves. -/
def chunkIdxF (d : ℚ) : ℤ := ⌊floatSub d startDistF / chunkWidthF⌋

theorem startDistF_eval : startDistF = 3602879701896397 / 2 ^ 56 := by
  have hlog : Int.log 2 startDist = -5 :=
    int_log_two_eq _ _ (by norm_num [startDist]) (by norm_num [startDist])
      (by norm_num [startDist])
  rw [startDistF, roundDouble, if_neg (by norm_num [startDist]), hlog]
  norm_num [rhe, startDist]

theorem chunkWidthF_eval : chunkWidthF = 3602879701896397 / 2 ^ 56 := by
  have hlog : Int.log 2 chunkWidth = -5 :=
    int_log_two_eq _ _ (by norm_num [chunkWidth]) (by norm_num [chunkWidth])
      (by norm_num [chunkWidth])
  rw [chunkWidthF, roundDouble, if_neg (by norm_num [chunkWidth]), hlog]
  norm_num [rhe, chunkWidth]

theorem finalDistF_eval : finalDistF = 5404319552844595 / 2 ^ 54 := by
  have hlog : Int.log 2 finalDistM = -2 :=
    int_log_two_eq _ _ (by norm_num [finalDistM]) (by norm_num [finalDistM])
      (by norm_num [finalDistM])
  rw [finalDistF, roundDouble, if_neg (by norm_num [finalDistM]), hlog]
  norm_num [rhe, finalDistM]

/-- The doubles 0.30 and 0.05 subtract, at double precision, to exactly
0.25: the exact difference 1/4 - 2^(-56) is a round-to-nearest tie whose
even neighbour is 1/4. -/
theorem maxRangeF_eval : maxRangeF = 1/4 := by
  have hdiff : finalDistF - startDistF = 18014398509481983 / 2 ^ 56 := by
    rw [finalDistF_eval, startDistF_eval]
    norm_num
  rw [maxRangeF, floatSub, hdiff]
  have hlog : Int.log 2 ((18014398509481983 : ℚ) / 2 ^ 56) = -3 :=
    int_log_two_eq _ _ (by norm_num) (by norm_num) (by norm_num)
  rw [roundDouble, if_neg (by norm_num), hlog]
  norm_num [rhe]

/-- Double-precision `(0.30 - 0.05)/0.05` rounds to exactly 5.0, so the
chunk count is 5 (the exact quotient is just below 5). -/
theorem nChunksF_eval : nChunksF = 5 := by
  have hq : maxRangeF / chunkWidthF = (18014398509481984 : ℚ) / 3602879701896397 := by
    rw [maxRangeF_eval, chunkWidthF_eval]
    norm_num
  have hlog : Int.log 2 ((18014398509481984 : ℚ) / 3602879701896397) = 2 :=
    int_log_two_eq _ _ (by norm_num) (by norm_num) (by norm_num)
  rw [nChunksF, hq, roundDouble, if_neg (by norm_num), hlog]
  norm_num [rhe]
  rfl

/-- C5: at the script's IEEE binary64 precision, the chunk grid has
`nChunks = 5 = floor((final - start)/width)` chunks, and every recorded
sample — its distance is a double between the doubles for 0.05 and
0.30 — is assigned to exactly one chunk, with no sample in two chunks:
the doubles 0.30 and 0.05 subtract to exactly 0.25 (a round-to-even
tie) and the float floor division of 0.25 by the double 0.05 is 4, so
even a sample at exactly the final distance falls in the last chunk and
the chunks partition [start, final] with no gaps or overlaps. -/
theorem chunk_float_partition (d : ℚ) :
    nChunksF = 5 ∧
    (nChunksF : ℤ) = ⌊(finalDistM - startDist) / chunkWidth⌋ ∧
    (startDistF ≤ d → d ≤ finalDistF →
      ∃ i : ℕ, i < nChunksF ∧ chunkIdxF d = (i : ℤ) ∧
        ∀ j : ℕ, chunkIdxF d = (j : ℤ) → j = i) := by
  refine ⟨nChunksF_eval, ?_, ?_⟩
  · rw [nChunksF_eval]
    norm_num [finalDistM, startDist, chunkWidth]
  · intro hd1 hd2
    have hxle : d - startDistF ≤ 1/4 - 2 ^ ((-56 : ℤ)) := by
      rw [finalDistF_eval] at hd2
      rw [startDistF_eval] at hd1
      rw [startDistF_eval]
      have hv : (5404319552844595 / 2 ^ 54 : ℚ) - 3602879701896397 / 2 ^ 56 =
          1/4 - 2 ^ ((-56 : ℤ)) := by
        norm_num
      linarith
    have hub : roundDouble (d - startDistF) ≤ 1/4 := roundDouble_le_quarter _ hxle
    have hlb : 0 ≤ roundDouble (d - startDistF) := roundDouble_nonneg _
    have hwpos : (0 : ℚ) < 3602879701896397 / 2 ^ 56 := by norm_num
    have hnn : 0 ≤ chunkIdxF d := by
      rw [chunkIdxF, floatSub, chunkWidthF_eval]
      exact Int.floor_nonneg.mpr (div_nonneg hlb (le_of_lt hwpos))
    have hlt : chunkIdxF d < 5 := by
      rw [chunkIdxF, floatSub, chunkWidthF_eval, Int.floor_lt, div_lt_iff hwpos]
      push_cast
      have hv5 : (5 : ℚ) * (3602879701896397 / 2 ^ 56) = 1/4 + 2 ^ ((-56 : ℤ)) := by
        norm_num
      have hppos : (0:ℚ) < 2 ^ ((-56 : ℤ)) := zpow_pos (by norm_num) _
      linarith
    refine ⟨(chunkIdxF d).toNat, ?_, ?_, ?_⟩
    · rw [nChunksF_eval]
      omega
    · rw [Int.toNat_of_nonneg hnn]
    · intro j hj
      rw [hj] at hnn hlt
      omega

/-- The endpoint sample, at exactly the double 0.30, is assigned to the
last chunk: its index is 4, not 5 (the float floor division
`0.25 // 0.05` is 4 because the double 0.05 exceeds 1/20). -/
theorem chunkIdxF_endpoint : chunkIdxF finalDistF = 4 := by
  rw [chunkIdxF, show floatSub finalDistF startDistF = maxRangeF from rfl, maxRangeF_eval,
    chunkWidthF_eval]
  norm_num

/-- C5 witness: the endpoint distance itself — the double 0.30, the
boundary the partition claim turns on — falls in exactly one chunk of
the double-precision grid. -/
theorem chunk_float_partition_witness :
    ∃ i : ℕ, i < nChunksF ∧ chunkIdxF finalDistF = (i : ℤ) ∧
      ∀ j : ℕ, chunkIdxF finalDistF = (j : ℤ) → j = i :=
  (chunk_float_partition finalDistF).2.2
    (by rw [startDistF_eval, finalDistF_eval]; norm_num) le_rfl



/-! ### C6: the recording window of the sampling loop -/

/-- Initial position for the concrete C6/C7 inputs. -/
def initC : Vec3 := ⟨0, 0, 0⟩

/-- Direction unit vector +X, as configured for the X+ run. -/
def uC : Vec3 := ⟨1, 0, 0⟩

/-- A snapshot at position x on the X axis, at rest and unloaded. -/
def snapAt (x : ℚ) : RobotState := ⟨⟨x, 0, 0⟩, ⟨0, 0, 0⟩, ⟨0, 0, 0⟩⟩

/-- C6 counterexample: the end effector crosses 0.06 m (latching the
start condition) and then retreats to 0.03 m; the sample at 0.03 m is
recorded although its absolute projected distance is below `startDist`,
so "recorded only while distance lies in [start, final]" fails. -/
theorem collect_damping_below_start_cex :
    collect_damping initC uC [snapAt (6/100), snapAt (3/100)] false =
      [⟨⟨0, 0, 0⟩, ⟨0, 0, 0⟩, 6/100⟩, ⟨⟨0, 0, 0⟩, ⟨0, 0, 0⟩, 3/100⟩] ∧
    (3/100 : ℚ) < startDist := by
  constructor
  · norm_num [collect_damping, distAbs, distDir, initC, uC, snapAt, startDist, finalDistM,
      abs_of_pos]
  · norm_num [startDist]

/-- C6 amended: recording respects the final distance (every recorded
sample has distance at most `finalDistM`) and cannot begin before some
sample reaches `startDist` (a stream that never does records nothing) —
but once latched, samples retreating below `startDist` are recorded too;
and the stop at the first sample past `finalDistM` is a one-shot,
non-resettable exit: the samples after that instant contribute nothing,
whatever they are. -/
theorem collect_damping_window (init u : Vec3) :
    (∀ stream reached, ∀ r ∈ collect_damping init u stream reached,
       r.dist ≤ finalDistM) ∧
    (∀ stream, (∀ s ∈ stream, distAbs init u s < startDist) →
       collect_damping init u stream false = []) ∧
    (∀ xs s ys reached, finalDistM < distAbs init u s →
       collect_damping init u (xs ++ s :: ys) reached =
         collect_damping init u (xs ++ [s]) reached) := by
  refine ⟨?_, ?_, ?_⟩
  · intro stream
    induction stream with
    | nil =>
      intro reached r hr
      simp [collect_damping] at hr
    | cons a t ih =>
      intro reached r hr
      simp only [collect_damping] at hr
      by_cases h2 : (reached || decide (startDist ≤ distAbs init u a)) = true
      · rw [if_pos h2] at hr
        by_cases h3 : distAbs init u a ≤ finalDistM
        · rw [if_pos h3] at hr
          rcases List.mem_cons.mp hr with heq | hr
          · subst heq
            exact h3
          · exact ih _ r hr
        · rw [if_neg h3] at hr
          simp at hr
      · rw [if_neg h2] at hr
        exact ih _ r hr
  · intro stream
    induction stream with
    | nil =>
      intro _
      simp [collect_damping]
    | cons a t ih =>
      intro h
      have ha : distAbs init u a < startDist := h a (List.mem_cons_self a t)
      simp only [collect_damping]
      have hd : decide (startDist ≤ distAbs init u a) = false := by
        simp only [decide_eq_false_iff_not, not_le]
        exact ha
      rw [hd, Bool.or_false]
      rw [if_neg (by simp)]
      exact ih fun s hs => h s (List.mem_cons_of_mem a hs)
  · intro xs s ys
    induction xs with
    | nil =>
      intro reached hover
      simp only [List.nil_append, collect_damping]
      have hstart : decide (startDist ≤ distAbs init u s) = true := by
        simp only [decide_eq_true_eq]
        have : startDist ≤ finalDistM := by norm_num [startDist, finalDistM]
        linarith
      have hd : ¬ distAbs init u s ≤ finalDistM := not_le.mpr hover
      rw [hstart, Bool.or_true]
      rw [if_pos rfl, if_pos rfl, if_neg hd, if_neg hd]
    | cons a xs ih =>
      intro reached hover
      simp only [List.cons_append, collect_damping]
      by_cases h2 : (reached || decide (startDist ≤ distAbs init u a)) = true
      · rw [if_pos h2, if_pos h2]
        by_cases h3 : distAbs init u a ≤ finalDistM
        · rw [if_pos h3, if_pos h3]
          exact congrArg _ (ih _ hover)
        · rw [if_neg h3, if_neg h3]
      · rw [if_neg h2, if_neg h2]
        exact ih _ hover

/-- C6 witness: an overshoot sample at 0.40 m ends collection; a further
sample at 0.06 m after it is never recorded. -/
theorem collect_damping_window_witness :
    collect_damping initC uC ([] ++ snapAt (2/5) :: [snapAt (6/100)]) false =
      collect_damping initC uC ([] ++ [snapAt (2/5)]) false :=
  (collect_damping_window initC uC).2.2 [] (snapAt (2/5)) [snapAt (6/100)] false
    (by norm_num [distAbs, distDir, initC, uC, snapAt, finalDistM, abs_of_pos])

/-! ### C7: per-chunk coefficients and the overall direction metric -/

/-- The qualification test of the accumulation
(`if bc>0 and avgV>1e-6`), as a Boolean on rows. -/
def validOf (row : ChunkRow) : Bool :=
  decide (0 < row.bc) && decide (epsFloor < row.avgV)

/-- Dense table of all `nChunks` rows, in index order. -/
def chunkTable (u : Vec3) (recs : List DataRec) : List ChunkRow :=
  (List.range nChunks).map (chunkRow u recs)

/-- The rows picked up by `validSumB`/`validCount`. -/
def validRows (u : Vec3) (recs : List DataRec) : List ChunkRow :=
  (chunkTable u recs).filter validOf

/-- The chunk loop's fold builds the full table in order and accumulates
exactly the qualifying rows' coefficients and count. -/
theorem chunkLoop_foldl_spec (u : Vec3) (recs : List DataRec) (l : List ℕ) :
    ∀ acc : List ChunkRow × ℚ × ℕ,
      (l.foldl (chunkLoopStep u recs) acc).1 = acc.1 ++ l.map (chunkRow u recs) ∧
      (l.foldl (chunkLoopStep u recs) acc).2.1 =
        acc.2.1 + (((l.map (chunkRow u recs)).filter validOf).map ChunkRow.bc).sum ∧
      (l.foldl (chunkLoopStep u recs) acc).2.2 =
        acc.2.2 + ((l.map (chunkRow u recs)).filter validOf).length := by
  induction l with
  | nil =>
    intro acc
    simp
  | cons i l ih =>
    intro acc
    simp only [List.foldl_cons, List.map_cons, List.filter_cons]
    by_cases hv : 0 < (chunkRow u recs i).bc ∧ epsFloor < (chunkRow u recs i).avgV
    · have hvb : validOf (chunkRow u recs i) = true := by
        simp [validOf, hv.1, hv.2]
      have hstep1 : (chunkLoopStep u recs acc i).1 = acc.1 ++ [chunkRow u recs i] := by
        rw [chunkLoopStep, if_pos hv]
      have hstep2 : (chunkLoopStep u recs acc i).2.1 = acc.2.1 + (chunkRow u recs i).bc := by
        rw [chunkLoopStep, if_pos hv]
      have hstep3 : (chunkLoopStep u recs acc i).2.2 = acc.2.2 + 1 := by
        rw [chunkLoopStep, if_pos hv]
      obtain ⟨e1, e2, e3⟩ := ih (chunkLoopStep u recs acc i)
      refine ⟨?_, ?_, ?_⟩
      · rw [e1, hstep1]
        simp
      · rw [e2, hstep2, hvb]
        simp
        ring
      · rw [e3, hstep3, hvb]
        simp
        omega
    · have hvb : validOf (chunkRow u recs i) = false := by
        rcases Decidable.not_and_iff_or_not.mp hv with hc | hc <;>
          simp [validOf, hc]
      have hstep1 : (chunkLoopStep u recs acc i).1 = acc.1 ++ [chunkRow u recs i] := by
        rw [chunkLoopStep, if_neg hv]
      have hstep2 : (chunkLoopStep u recs acc i).2.1 = acc.2.1 := by
        rw [chunkLoopStep, if_neg hv]
      have hstep3 : (chunkLoopStep u recs acc i).2.2 = acc.2.2 := by
        rw [chunkLoopStep, if_neg hv]
      obtain ⟨e1, e2, e3⟩ := ih (chunkLoopStep u recs acc i)
      refine ⟨?_, ?_, ?_⟩
      · rw [e1, hstep1]
        simp
      · rw [e2, hstep2]
        simp [hvb]
      · rw [e3, hstep3]
        simp [hvb]

/-- C7 amended: the chunk stage of a completed damping run produces the
dense table of all `nChunks` rows in index order (so empty chunks appear
as zero-valued rows rather than being omitted); every non-empty row's
coefficient is mean(|projected force|)/mean(|projected velocity|) floored
to zero below `1e-6`; and the overall metric is the mean of the
coefficients over exactly the qualifying rows — those with a nonzero
coefficient AND mean speed strictly above the `1e-6` floor (a row whose
mean speed equals the floor exactly keeps its nonzero coefficient in the
table but is excluded from the mean, per the counterexample) — and zero
when no row qualifies. -/
theorem measure_damping_overall (u : Vec3) (recs : List DataRec) :
    (measure_damping_chunks u recs).2 = chunkTable u recs ∧
    (∀ row ∈ chunkTable u recs, row.n = 0 →
       row.avgV = 0 ∧ row.avgF = 0 ∧ row.bc = 0) ∧
    (∀ row ∈ chunkTable u recs, row.n ≠ 0 →
       row.bc = if row.avgV < epsFloor then 0 else row.avgF / row.avgV) ∧
    (measure_damping_chunks u recs).1 =
      (if (validRows u recs).length = 0 then 0
       else ((validRows u recs).map ChunkRow.bc).sum / ((validRows u recs).length : ℚ)) := by
  obtain ⟨e1, e2, e3⟩ := chunkLoop_foldl_spec u recs (List.range nChunks) ([], 0, 0)
  refine ⟨?_, ?_, ?_, ?_⟩
  · rw [measure_damping_chunks]
    rw [e1]
    simp [chunkTable]
  · intro row hrow hn0
    obtain ⟨i, _, hi⟩ := List.mem_map.mp hrow
    rw [chunkRow] at hi
    by_cases hlen : (recsInChunk recs i).length = 0
    · rw [if_pos hlen] at hi
      rw [← hi]
      exact ⟨rfl, rfl, rfl⟩
    · rw [if_neg hlen] at hi
      rw [← hi] at hn0
      exact absurd hn0 hlen
  · intro row hrow hn
    obtain ⟨i, _, hi⟩ := List.mem_map.mp hrow
    rw [chunkRow] at hi
    by_cases hlen : (recsInChunk recs i).length = 0
    · rw [if_pos hlen] at hi
      rw [← hi] at hn
      exact absurd rfl hn
    · rw [if_neg hlen] at hi
      rw [← hi]
  · rw [measure_damping_chunks]
    rw [e2, e3, zero_add, zero_add]
    rfl

/-- Concrete records for the C7 counterexample: one sample in chunk 0
whose mean speed is exactly the 1e-6 floor (coefficient 10^6, reported
but not counted), one well-behaved sample in chunk 1 (coefficient 2). -/
def recCex0 : DataRec := ⟨⟨1/1000000, 0, 0⟩, ⟨1, 0, 0⟩, 6/100⟩

/-- Second counterexample record (chunk 1, speed 1, force 2). -/
def recCex1 : DataRec := ⟨⟨1, 0, 0⟩, ⟨2, 0, 0⟩, 11/100⟩

/-- The counterexample record list. -/
def recsCex : List DataRec := [recCex0, recCex1]

theorem chunkRow_recsCex_eval :
    chunkRow uC recsCex 0 = ⟨0, 1/20, 1/10, 1/1000000, 1, 1000000, 1⟩ ∧
    chunkRow uC recsCex 1 = ⟨1, 1/10, 3/20, 1, 2, 2, 1⟩ ∧
    ∀ i, 2 ≤ i → i ≤ 4 → chunkRow uC recsCex i =
      ⟨i, startDist + chunkWidth * i, startDist + chunkWidth * i + chunkWidth, 0, 0, 0, 0⟩ := by
  have hidx0 : chunkIdx (6/100) = 0 := by
    norm_num [chunkIdx, startDist, chunkWidth]
  have hidx1 : chunkIdx (11/100) = 1 := by
    norm_num [chunkIdx, startDist, chunkWidth]
  refine ⟨?_, ?_, ?_⟩
  · have hri : recsInChunk recsCex 0 = [recCex0] := by
      simp [recsInChunk, recsCex, List.filter, recCex0, recCex1, hidx0, hidx1]
    rw [chunkRow, hri]
    norm_num [recCex0, dot, uC, startDist, chunkWidth, epsFloor, abs_of_pos]
  · have hri : recsInChunk recsCex 1 = [recCex1] := by
      simp [recsInChunk, recsCex, List.filter, recCex0, recCex1, hidx0, hidx1]
    rw [chunkRow, hri]
    norm_num [recCex1, dot, uC, startDist, chunkWidth, epsFloor, abs_of_pos]
  · intro i h2 h4
    have hri : recsInChunk recsCex i = [] := by
      have hne0 : chunkIdx (6/100) ≠ (i : ℤ) := by
        rw [hidx0]
        intro hc
        omega
      have hne1 : chunkIdx (11/100) ≠ (i : ℤ) := by
        rw [hidx1]
        intro hc
        omega
      simp [recsInChunk, recsCex, List.filter, recCex0, recCex1, hne0, hne1]
    rw [chunkRow, hri]
    simp

/-- C7 counterexample: on `recsCex` the code's overall metric is 2 (only
the chunk-1 row qualifies), while the mean of the coefficients over the
rows with a nonzero coefficient — as the claim words it — would be
(10^6 + 2)/2 ≠ 2, because the chunk-0 row has the nonzero, well-defined
coefficient 10^6 but its mean speed equals the 1e-6 floor exactly, so
the code excludes it from the average. -/
theorem damping_overall_mean_cex :
    (measure_damping_chunks uC recsCex).1 = 2 ∧
    ((measure_damping_chunks uC recsCex).2.filter fun row => decide (row.bc ≠ 0)).map
        ChunkRow.bc = [1000000, 2] ∧
    ((1000000 : ℚ) + 2) / 2 ≠ 2 := by
  obtain ⟨h0, h1, hrest⟩ := chunkRow_recsCex_eval
  have h2 := hrest 2 (by omega) (by omega)
  have h3 := hrest 3 (by omega) (by omega)
  have h4 := hrest 4 (by omega) (by omega)
  obtain ⟨e1, e2, e3⟩ := chunkLoop_foldl_spec uC recsCex (List.range nChunks) ([], 0, 0)
  have hrange : List.range nChunks = [0, 1, 2, 3, 4] := by
    rw [nChunks_eq_five]
    rfl
  have hmap : (List.range nChunks).map (chunkRow uC recsCex) =
      [⟨0, 1/20, 1/10, 1/1000000, 1, 1000000, 1⟩, ⟨1, 1/10, 3/20, 1, 2, 2, 1⟩,
       ⟨2, startDist + chunkWidth * 2, startDist + chunkWidth * 2 + chunkWidth, 0, 0, 0, 0⟩,
       ⟨3, startDist + chunkWidth * 3, startDist + chunkWidth * 3 + chunkWidth, 0, 0, 0, 0⟩,
       ⟨4, startDist + chunkWidth * 4, startDist + chunkWidth * 4 + chunkWidth, 0, 0, 0, 0⟩] := by
    rw [hrange]
    simp only [List.map_cons, List.map_nil, h0, h1, h2, h3, h4]
    norm_num
  have hval0 : validOf (⟨0, 1/20, 1/10, 1/1000000, 1, 1000000, 1⟩ : ChunkRow) = false := by
    norm_num [validOf, epsFloor]
  have hval1 : validOf (⟨1, 1/10, 3/20, 1, 2, 2, 1⟩ : ChunkRow) = true := by
    norm_num [validOf, epsFloor]
  have hvalz : ∀ a b c : ℚ, validOf (⟨2, a, b, 0, 0, 0, 0⟩ : ChunkRow) = false ∧
      validOf (⟨3, a, b, 0, 0, 0, 0⟩ : ChunkRow) = false ∧
      validOf (⟨4, a, b, 0, 0, 0, 0⟩ : ChunkRow) = false := by
    intro a b c
    refine ⟨?_, ?_, ?_⟩ <;> norm_num [validOf]
  refine ⟨?_, ?_, by norm_num⟩
  · rw [measure_damping_chunks]
    rw [e2, e3, zero_add, zero_add, hmap]
    simp only [List.filter_cons, List.filter_nil, hval0, hval1,
      (hvalz _ _ 0).1, (hvalz _ _ 0).2.1, (hvalz _ _ 0).2.2]
    norm_num
  · rw [measure_damping_chunks]
    simp only [e1, List.nil_append, hmap]
    norm_num [List.filter_cons, epsFloor]

/-- Single-record input for the C7 witness: one sample in chunk 0. -/
def recsW : List DataRec := [⟨⟨1, 0, 0⟩, ⟨21/10, 0, 0⟩, 6/100⟩]

/-- C7 witness: the non-empty chunk-0 row of `recsW` obeys the guarded
coefficient formula. -/
theorem measure_damping_overall_witness :
    (chunkRow uC recsW 0).bc =
      if (chunkRow uC recsW 0).avgV < epsFloor then 0
      else (chunkRow uC recsW 0).avgF / (chunkRow uC recsW 0).avgV :=
  (measure_damping_overall uC recsW).2.2.1 (chunkRow uC recsW 0)
    (List.mem_map_of_mem (chunkRow uC recsW) (by rw [nChunks_eq_five]; decide))
    (by
      have hidx : chunkIdx (6/100) = 0 := by
        norm_num [chunkIdx, startDist, chunkWidth]
      have hri : recsInChunk recsW 0 = recsW := by
        simp [recsInChunk, recsW, List.filter, hidx]
      rw [chunkRow, hri]
      norm_num [recsW])

/-! ## Elapsed-validity transparency detector
(transparency_measure.py, `measure_transparency_once`, lines 109-175) -/

/-- One sampling instant: wall-clock time and the Z-axis external forces
of the leader (`F_master_z`) and follower (`F_slave_z`). -/
structure TSample where
  t : ℚ
  Fm : ℚ
  Fs : ℚ
deriving DecidableEq

/-- The acceptance band `9.0 <= F_slave_z <= 11.0`. -/
def inBand (fs : ℚ) : Bool := decide (9 ≤ fs) && decide (fs ≤ 11)

/-- Result of one run: the "no valid data" branch (Python `None`), or a
transparency ratio where the inner `none` is the `float('inf')`
sentinel. -/
inductive TransResult where
  | noData
  | value (v : Option ℚ)
deriving DecidableEq

/-- One iteration of the sampling loop on the running state
`(valid_start_time, valid_data)`: an in-band sample starts or extends the
valid span and, once the elapsed validity reaches `valid_duration`,
breaks the loop (`Sum.inr` is the `break` carrying the span); an
out-of-band sample resets the timer and discards the span. -/
def tStep (st : Option ℚ × List TSample) (x : TSample) :
    (Option ℚ × List TSample) ⊕ List TSample :=
  if inBand x.Fs then
    let vs : ℚ :=
      match st.1 with
      | none => x.t
      | some s => s
    let vd : List TSample :=
      match st.1 with
      | none => [x]
      | some _ => st.2 ++ [x]
    if valid_duration ≤ x.t - vs then Sum.inr vd else Sum.inl (some vs, vd)
  else Sum.inl (none, [])

/-- The `while True` loop over a finite prefix of the sample stream:
`some vd` when the loop broke with buffered span `vd`; `none` when the
prefix ended with the loop still polling. -/
def tRun : List TSample → Option ℚ × List TSample → Option (List TSample)
  | [], _ => none
  | x :: rest, st =>
    match tStep st x with
    | Sum.inr vd => some vd
    | Sum.inl st2 => tRun rest st2

/-- The post-loop reduction (lines 158-175): `None` when no valid data
was collected, otherwise `-avg_F_master/avg_F_slave` with the infinite
sentinel when the mean slave force is within `1e-6` of zero. -/
def transparency_of_span (vd : List TSample) : TransResult :=
  if vd.length = 0 then TransResult.noData
  else
    let N : ℚ := vd.length
    let avg_F_master := (vd.map TSample.Fm).sum / N
    let avg_F_slave := (vd.map TSample.Fs).sum / N
    if |avg_F_slave| < epsFloor then TransResult.value none
    else TransResult.value (some (-avg_F_master / avg_F_slave))

/-- The function `measure_transparency_once` on a finite prefix of the telemetry
stream. -/
def measure_transparency_once (stream : List TSample) : Option TransResult :=
  (tRun stream (none, [])).map transparency_of_span

/-- If the loop closes on a prefix, later samples are never consumed. -/
theorem tRun_append_of_closed (l1 l2 : List TSample) :
    ∀ st vd, tRun l1 st = some vd → tRun (l1 ++ l2) st = some vd := by
  induction l1 with
  | nil =>
    intro st vd h
    simp [tRun] at h
  | cons x rest ih =>
    intro st vd h
    rw [tRun] at h
    rw [List.cons_append, tRun]
    rcases he : tStep st x with st2 | vd2
    · rw [he] at h
      exact ih st2 vd h
    · rw [he] at h
      exact h

/-- The 10 Hz constant example sample: slave 10.0 N, master −10.5 N. -/
def exampleSample (k : ℕ) : TSample := ⟨(k : ℚ)/10, -(21/2), 10⟩

/-- The constant example stream: 3.5 s at 10 Hz. -/
def exampleStream : List TSample := (List.range 35).map exampleSample

/-- The first 3.0 s (31 samples, times 0.0 to 3.0) of the example. -/
def exampleFirst31 : List TSample := (List.range 31).map exampleSample

theorem measure_exampleFirst31_eval :
    measure_transparency_once exampleFirst31 = some (TransResult.value (some (21/20))) := by
  have hr : List.range 31 =
      [0, 1, 2, 3, 4, 5, 6, 7, 8, 9, 10, 11, 12, 13, 14, 15, 16, 17, 18, 19, 20,
       21, 22, 23, 24, 25, 26, 27, 28, 29, 30] := rfl
  rw [measure_transparency_once, exampleFirst31, hr]
  norm_num [exampleSample, tRun, tStep, inBand, valid_duration, transparency_of_span,
    epsFloor, abs_of_pos]

theorem measure_exampleStream_eval :
    measure_transparency_once exampleStream = some (TransResult.value (some (21/20))) := by
  have hsplit : exampleStream = exampleFirst31 ++ (List.range' 31 4).map exampleSample := by
    rw [exampleStream, exampleFirst31,
      show List.range 35 = List.range 31 ++ List.range' 31 4 from rfl, List.map_append]
  have h := measure_exampleFirst31_eval
  rw [measure_transparency_once] at h ⊢
  rw [hsplit]
  rcases ho : tRun exampleFirst31 (none, []) with _ | vd
  · rw [ho] at h
    simp at h
  · rw [ho] at h
    rw [tRun_append_of_closed _ _ _ vd ho]
    exact h

/-- C8: any sample with slave force outside the [9 N, 11 N] band resets
validity and discards the buffered span; from a span started at time s,
an in-band sample closes the segment exactly when its time has reached
s + 3.0; and on the constant example stream (slave 10.0 N, master
−10.5 N, 10 Hz, 3.5 s) the detector closes on the first 3.0 s of
continuous validity — the 31-sample prefix alone already decides the
run, the remaining half second is never consumed — and reports the
ratio 21/20 = 1.05. -/
theorem transparency_band_reset_and_example :
    (∀ st x, inBand x.Fs = false → tStep st x = Sum.inl (none, [])) ∧
    (∀ s vd x, inBand x.Fs = true →
       (tStep (some s, vd) x = Sum.inr (vd ++ [x]) ↔ valid_duration ≤ x.t - s)) ∧
    measure_transparency_once exampleStream = some (TransResult.value (some (21/20))) ∧
    measure_transparency_once exampleFirst31 = some (TransResult.value (some (21/20))) := by
  refine ⟨?_, ?_, measure_exampleStream_eval, measure_exampleFirst31_eval⟩
  · intro st x hb
    rw [tStep, if_neg]
    rw [hb]
    simp
  · intro s vd x hb
    constructor
    · intro he
      by_contra hc
      simp only [tStep, hb, if_true, if_neg hc] at he
      exact absurd he (by simp)
    · intro hc
      simp only [tStep, hb, if_true, if_pos hc]

/-- C8 witness: a 20 N slave-force sample is outside the band and resets
the state from a running span. -/
theorem transparency_band_reset_witness :
    tStep (some 1, [⟨1, -(21/2), 10⟩]) ⟨2, 0, 20⟩ = Sum.inl (none, []) :=
  transparency_band_reset_and_example.1 (some 1, [⟨1, -(21/2), 10⟩]) ⟨2, 0, 20⟩
    (by norm_num [inBand])

/-! ### C9: guarded divisions in every metric calculator -/

/-- C9: each metric reduction guards its division by the `1e-6` floor:
below the floor the damping coefficient is the zero sentinel and the
stiffness and transparency ratios the infinite sentinel; and whenever
the division branch is taken the denominator is nonzero, so no division
by zero is ever performed. -/
theorem metric_divisions_guarded :
    (∀ s : List (ℚ × ℚ),
       (|(s.map Prod.fst).sum / (s.length : ℚ)| < epsFloor → K_of_segment s = none) ∧
       (¬ |(s.map Prod.fst).sum / (s.length : ℚ)| < epsFloor →
          (s.map Prod.fst).sum / (s.length : ℚ) ≠ 0)) ∧
    (∀ (u : Vec3) (recs : List DataRec) (i : ℕ),
       ((chunkRow u recs i).n ≠ 0 → (chunkRow u recs i).avgV < epsFloor →
          (chunkRow u recs i).bc = 0) ∧
       (¬ (chunkRow u recs i).avgV < epsFloor → (chunkRow u recs i).avgV ≠ 0)) ∧
    (∀ vd : List TSample, vd.length ≠ 0 →
       (|(vd.map TSample.Fs).sum / (vd.length : ℚ)| < epsFloor →
          transparency_of_span vd = TransResult.value none) ∧
       (¬ |(vd.map TSample.Fs).sum / (vd.length : ℚ)| < epsFloor →
          (vd.map TSample.Fs).sum / (vd.length : ℚ) ≠ 0)) := by
  have habs : ∀ q : ℚ, ¬ |q| < epsFloor → q ≠ 0 := by
    intro q h hq
    rw [hq] at h
    simp [epsFloor] at h
  refine ⟨?_, ?_, ?_⟩
  · intro s
    refine ⟨?_, fun h => habs _ h⟩
    intro h
    rw [K_of_segment, if_pos h]
  · intro u recs i
    constructor
    · intro hn hlt
      rw [chunkRow] at hn hlt ⊢
      by_cases hlen : (recsInChunk recs i).length = 0
      · rw [if_pos hlen] at hn
        exact absurd rfl hn
      · rw [if_neg hlen] at hlt ⊢
        exact if_pos hlt
    · intro h
      exact habs _ (by
        intro hc
        exact h (lt_of_abs_lt hc))
  · intro vd hlen
    refine ⟨?_, fun h => habs _ h⟩
    intro h
    rw [transparency_of_span, if_neg hlen, if_pos h]

/-- C9 witness: a one-sample sub-segment with zero error yields the
stiffness sentinel, not a fault. -/
theorem metric_divisions_guarded_witness :
    K_of_segment [((0 : ℚ), (1 : ℚ))] = none :=
  (metric_divisions_guarded.1 [((0 : ℚ), (1 : ℚ))]).1 (by norm_num [epsFloor])

/-! ### C10: the "no valid data" branch is unreachable -/

/-- Shapes `tStep` can take: reset, extension of the running span by the
current sample, restart at the current sample, or break with one of the
latter two spans. -/
theorem tStep_shape (st : Option ℚ × List TSample) (x : TSample) :
    tStep st x = Sum.inl (none, []) ∨
    (inBand x.Fs = true ∧
      ((∃ vs, tStep st x = Sum.inl (some vs, st.2 ++ [x])) ∨
       (∃ vs, tStep st x = Sum.inl (some vs, [x])) ∨
       tStep st x = Sum.inr (st.2 ++ [x]) ∨
       tStep st x = Sum.inr [x])) := by
  by_cases hb : inBand x.Fs = true
  · rcases st with ⟨vso, vdl⟩
    rcases vso with _ | s
    · by_cases hc : valid_duration ≤ x.t - x.t
      · right
        exact ⟨hb, Or.inr (Or.inr (Or.inr (by simp only [tStep, hb, if_true, if_pos hc])))⟩
      · right
        exact ⟨hb, Or.inr (Or.inl ⟨x.t, by simp only [tStep, hb, if_true, if_neg hc]⟩)⟩
    · by_cases hc : valid_duration ≤ x.t - s
      · right
        exact ⟨hb, Or.inr (Or.inr (Or.inl (by simp only [tStep, hb, if_true, if_pos hc])))⟩
      · right
        exact ⟨hb, Or.inl ⟨s, by simp only [tStep, hb, if_true, if_neg hc]⟩⟩
  · left
    rw [tStep, if_neg hb]

/-- Invariant of the sampling loop: every buffered sample is in-band, and
a closed span is non-empty and entirely in-band. -/
theorem tRun_closed_inBand (stream : List TSample) :
    ∀ st : Option ℚ × List TSample, (∀ x ∈ st.2, inBand x.Fs = true) →
      ∀ vd, tRun stream st = some vd →
        vd ≠ [] ∧ ∀ x ∈ vd, inBand x.Fs = true := by
  induction stream with
  | nil =>
    intro st hinv vd h
    simp [tRun] at h
  | cons a t ih =>
    intro st hinv vd h
    rw [tRun] at h
    have hext : ∀ x ∈ st.2 ++ [a], inBand a.Fs = true → inBand x.Fs = true := by
      intro x hx hb
      rcases List.mem_append.mp hx with hx | hx
      · exact hinv x hx
      · rw [List.mem_singleton.mp hx]
        exact hb
    rcases tStep_shape st a with he | ⟨hb, hcase⟩
    · rw [he] at h
      exact ih (none, []) (by simp) vd h
    · rcases hcase with ⟨vs, he⟩ | ⟨vs, he⟩ | he | he
      · rw [he] at h
        have h2 : tRun t (some vs, st.2 ++ [a]) = some vd := h
        exact ih (some vs, st.2 ++ [a]) (fun x hx => hext x hx hb) vd h2
      · rw [he] at h
        have h2 : tRun t (some vs, [a]) = some vd := h
        refine ih (some vs, [a]) ?_ vd h2
        intro x hx
        rw [List.mem_singleton.mp hx]
        exact hb
      · rw [he] at h
        have h2 : some (st.2 ++ [a]) = some vd := h
        obtain rfl := Option.some.inj h2
        exact ⟨by simp, fun x hx => hext x hx hb⟩
      · rw [he] at h
        have h2 : some [a] = some vd := h
        obtain rfl := Option.some.inj h2
        refine ⟨by simp, ?_⟩
        intro x hx
        rw [List.mem_singleton.mp hx]
        exact hb

/-- A list of rationals all at least 9 has sum at least 9 times its
length. -/
theorem nine_le_sum_of_forall (l : List ℚ) (h : ∀ x ∈ l, (9 : ℚ) ≤ x) :
    9 * l.length ≤ l.sum := by
  induction l with
  | nil => simp
  | cons a t ih =>
    have ha := h a (List.mem_cons_self a t)
    have ht := ih fun x hx => h x (List.mem_cons_of_mem a hx)
    simp only [List.sum_cons, List.length_cons]
    push_cast
    linarith

/-- C10: whenever the sampling loop of `measure_transparency_once`
terminates, the buffered span is non-empty and entirely in-band, so the
"no valid data" branch is unreachable and the function returns a finite
numeric ratio: the mean slave force of an in-band span is at least 9 N,
far above the 1e-6 sentinel floor. -/
theorem transparency_never_noData (stream : List TSample) (res : TransResult)
    (h : measure_transparency_once stream = some res) :
    ∃ q : ℚ, res = TransResult.value (some q) := by
  rw [measure_transparency_once] at h
  rcases ho : tRun stream (none, []) with _ | vd
  · rw [ho] at h
    simp at h
  · rw [ho] at h
    rw [Option.map_some'] at h
    obtain ⟨hne, hband⟩ := tRun_closed_inBand stream (none, []) (by simp) vd ho
    have hlen : vd.length ≠ 0 := by
      intro hc
      exact hne (List.length_eq_zero.mp hc)
    have hlenpos : (0 : ℚ) < (vd.length : ℚ) := by
      have : 0 < vd.length := Nat.pos_of_ne_zero hlen
      exact_mod_cast this
    have h9 : (9 : ℚ) ≤ (vd.map TSample.Fs).sum / (vd.length : ℚ) := by
      rw [le_div_iff hlenpos]
      have := nine_le_sum_of_forall (vd.map TSample.Fs) ?_
      · simpa [mul_comm] using this
      · intro x hx
        obtain ⟨y, hy, rfl⟩ := List.mem_map.mp hx
        have hb := hband y hy
        rw [inBand, Bool.and_eq_true, decide_eq_true_eq, decide_eq_true_eq] at hb
        exact hb.1
    have hguard : ¬ |(vd.map TSample.Fs).sum / (vd.length : ℚ)| < epsFloor := by
      rw [not_lt, epsFloor]
      calc (1 / 1000000 : ℚ) ≤ 9 := by norm_num
        _ ≤ (vd.map TSample.Fs).sum / (vd.length : ℚ) := h9
        _ ≤ |(vd.map TSample.Fs).sum / (vd.length : ℚ)| := le_abs_self _
    rw [transparency_of_span, if_neg hlen, if_neg hguard] at h
    exact ⟨_, (Option.some.inj h).symm⟩

/-- C10 witness: the example run terminates and indeed yields the
numeric ratio 1.05, not the "no valid data" result. -/
theorem transparency_never_noData_witness :
    ∃ q : ℚ, TransResult.value (some (21/20)) = TransResult.value (some q) :=
  transparency_never_noData exampleFirst31 (TransResult.value (some (21/20)))
    measure_exampleFirst31_eval

end FlexivSpec
